import Mathlib

/-!
# ftdc: chunks, `Map`, `Clip` and the `Chunks` coordinator

A shallow embedding of `ftdc.go`.

Conventions of the embedding.

* Go `int` and `int64` are 64-bit two's complement.  Fields and arguments are
  `Int`; the arithmetic on metric values and times that can leave the 64-bit
  range (`Value + sum(Deltas)`, `t += d / 1000`, the additions inside `sum`)
  is wrapped with `wrap64`.  The counters `si` and `ei` count loop iterations
  and are left unwrapped.
* Go `/` on integers truncates toward zero: `Int.tdiv`.
* A slice is the list of its elements, its capacity being its length (as for a
  slice literal or a freshly made slice).  An index or slice expression out of
  range is a run-time panic: the functions below return `none`.
* A method with a pointer receiver returns the receiver after the call next to
  its result.
-/

namespace Ftdc

/-- Metric represents an item in a chunk: `Key`, the `Value` at the beginning
of the sample and the `Deltas` that accumulate on it. -/
structure Metric where
  Key : String
  Value : Int
  Deltas : List Int
  deriving DecidableEq

/-- Chunk represents a metric chunk of data. -/
structure Chunk where
  Metrics : List Metric
  NDeltas : Int
  deriving DecidableEq

/-- Two's complement wrap-around of a 64-bit signed integer. -/
def wrap64 (x : Int) : Int := (x + 9223372036854775808) % 18446744073709551616 - 9223372036854775808

/-- Modelled from the spec: the helper `sum(xs ...int) int` is called by `Clip`
but is not part of `ftdc.go`; the spec reads `sum(all Deltas)` and
`sum of Deltas[0:si]`, the sum of the given integers (in Go `int` arithmetic). -/
def sum (xs : List Int) : Int := xs.foldl (fun acc x => wrap64 (acc + x)) 0

/-- First-sample time in seconds: `mst := int64(m.Value) / 1000`. -/
def mst (m : Metric) : Int := m.Value.tdiv 1000

/-- Last-sample time in seconds:
`met := (int64(m.Value) + int64(sum(m.Deltas...))) / 1000`. -/
def met (m : Metric) : Int := (wrap64 (m.Value + sum m.Deltas)).tdiv 1000

/-- The walk `for i := 0; i < c.NDeltas; i++ { ... }` over the deltas of the
start metric.  The first argument is the number of iterations still allowed by
the loop condition (`c.NDeltas - i`), then the index `i`, the clock `t` and the
counters `si`, `ei`.  The result is the final `(si, ei)`, or `none` when
`m.Deltas[i]` is out of range. -/
def walk (ds : List Int) (st et : Int) : Nat → Nat → Int → Int → Int → Option (Int × Int)
  | 0, _, _, si, ei => some (si, ei)
  | k + 1, i, t, si, ei =>
    match ds.get? i with
    | none => none
    | some d =>
      let t1 := wrap64 (t + d.tdiv 1000)
      let si1 := if t1 < st then si + 1 else si
      if t1 < et then walk ds st et k (i + 1) t1 si1 (ei + 1)
      else some (si1, ei)

/-- Boundary adjustment after the walk:
`if ei+1 < c.NDeltas { ei++ } else { ei = c.NDeltas - 1 }`. -/
def adjust (n ei : Int) : Int := if ei + 1 < n then ei + 1 else n - 1

/-- What the first loop of `Clip` (the `range c.Metrics` that looks for the
start metric) ends with. -/
inductive Scan where
  /-- `return false`: entire chunk outside range. -/
  | outside
  /-- `return true`: entire chunk inside range. -/
  | inside
  /-- The loop is left (by `break`, or at the end of the metrics) with these
  values of `si` and `ei`. -/
  | indices (si ei : Int)
  /-- Index out of range in the walk. -/
  | panic
  deriving DecidableEq

/-- The first loop's body on a metric whose key is `"start"`, in a chunk with
`NDeltas = n`: the two early returns, then the walk and the boundary
adjustment, then `break`. -/
def scanStart (n st et : Int) (m : Metric) : Scan :=
  if met m < st || mst m > et then Scan.outside
  else if mst m > st && met m < et then Scan.inside
  else
    match walk m.Deltas st et n.toNat 0 (mst m) 0 0 with
    | none => Scan.panic
    | some (si, ei) => Scan.indices si (adjust n ei)

/-- The first loop of `Clip`, over the metrics of a chunk with `NDeltas = n`:
metrics with another key are skipped (`continue`), the first start metric
decides, and without one `si` and `ei` keep their zero values. -/
def scan (n st et : Int) : List Metric → Scan
  | [] => Scan.indices 0 0
  | m :: rest =>
    if m.Key != "start" then scan n st et rest
    else scanStart n st et m

/-- Body of the second loop of `Clip` on the loop variable `m`:
`m.Value += sum(m.Deltas[:si]...)` and `m.Deltas = m.Deltas[si : ei+1]`.
Returns the loop variable after the body, `none` when a slice expression is out
of range. -/
def rebase (si ei : Int) (m : Metric) : Option Metric :=
  if 0 ≤ si ∧ si ≤ m.Deltas.length then
    let v := wrap64 (m.Value + sum (m.Deltas.take si.toNat))
    if si ≤ ei + 1 ∧ ei + 1 ≤ m.Deltas.length then
      some { m with Value := v, Deltas := (m.Deltas.drop si.toNat).take (ei + 1 - si).toNat }
    else none
  else none

/-- The second loop of `Clip`, `for _, m := range c.Metrics { ... }`.  The loop
variable `m` is a copy of the element, so the body changes no element of
`c.Metrics`; the loop only completes (`some ()`) or panics (`none`). -/
def rebaseAll (si ei : Int) : List Metric → Option Unit
  | [] => some ()
  | m :: rest =>
    match rebase si ei m with
    | none => none
    | some _ => rebaseAll si ei rest

/-- `func (c *Chunk) Clip(start, end time.Time) bool`, with `st = start.Unix()`
and `et = end.Unix()`.  Returns the result and the chunk after the call, or
`none` on a run-time panic. -/
def Clip (c : Chunk) (st et : Int) : Option (Bool × Chunk) :=
  match scan c.NDeltas st et c.Metrics with
  | Scan.outside => some (false, c)
  | Scan.inside => some (true, c)
  | Scan.panic => none
  | Scan.indices si ei =>
    match rebaseAll si ei c.Metrics with
    | none => none
    | some _ => some (true, { c with NDeltas := ei - si })

/-- A Go `map[string]Metric`, as its lookup: `none` for a key not in the map. -/
abbrev MetricMap := String → Option Metric

/-- The map `make(map[string]Metric)`. -/
def MetricMap.empty : MetricMap := fun _ => none

/-- The assignment `m[k] = v`. -/
def MetricMap.set (m : MetricMap) (k : String) (v : Metric) : MetricMap :=
  fun q => if q = k then some v else m q

/-- `func (c *Chunk) Map() map[string]Metric`: one pass over `c.Metrics`
assigning `m[metric.Key] = metric`.  Returns the map and the chunk after the
call. -/
def Map (c : Chunk) : MetricMap × Chunk :=
  (c.Metrics.foldl (fun m metric => m.set metric.Key metric) MetricMap.empty, c)

/-- The receive loop of `Chunks`,
`for i := 0; i < 2; i++ { err := <-errCh; if err != nil { return err } }` followed
by `return nil`.  The first argument is the number of iterations left, the
second the results that the stages send on `errCh`, in arrival order (`none`
is a nil error), the third the number of receives done so far.  The result is
the error returned and the number of receives done, or `none` when the loop
blocks forever on a receive that no stage answers. -/
def recvLoop {E : Type} : Nat → List (Option E) → Nat → Option (Option E × Nat)
  | 0, _, cnt => some (none, cnt)
  | _ + 1, [], _ => none
  | _ + 1, some err :: _, cnt => some (some err, cnt + 1)
  | k + 1, none :: rest, cnt => recvLoop k rest (cnt + 1)

/-- `func Chunks(r io.Reader, c chan<- Chunk) error`, as far as the error
channel goes: each of the two goroutines sends one result on `errCh`
(`readDiagnostic` and `readChunks` are not part of `ftdc.go`); `r1` is the
result that arrives first, `r2` the one that arrives second. -/
def Chunks {E : Type} (r1 r2 : Option E) : Option (Option E × Nat) :=
  recvLoop 2 [r1, r2] 0

/-- Sample times in seconds reconstructed from a start metric and a number of
deltas `n`: `Value` plus the prefix sums of the first `n` deltas, over 1000. -/
def sampleTimes (m : Metric) (n : Int) : List Int :=
  (List.range (n.toNat + 1)).map (fun j => (m.Value + (m.Deltas.take j).sum).tdiv 1000)

/-- The first metric of the chunk whose key is `"start"`. -/
def firstStart (ms : List Metric) : Option Metric := ms.find? (fun m => m.Key == "start")

/-- The start metric of the scenarios: `Value = 1000`, `Deltas = [1000, 1000, 1000]`,
sample times 1 s, 2 s, 3 s, 4 s. -/
def startMetric : Metric := { Key := "start", Value := 1000, Deltas := [1000, 1000, 1000] }

/-- The chunk of the scenarios: the start metric alone, `NDeltas = 3`. -/
def scenarioChunk : Chunk := { Metrics := [startMetric], NDeltas := 3 }

/-- The scenario chunk with more metrics after its start metric: an `"end"`
metric and a second metric keyed `"start"`. -/
def scenarioChunkMore : Chunk :=
  { Metrics := [startMetric,
                { Key := "end", Value := 1500, Deltas := [1000, 1000, 1000] },
                { Key := "start", Value := 7000, Deltas := [1, 2, 3] }],
    NDeltas := 3 }

/-- A chunk with zero deltas: the start metric has `Value = 2000` and no
deltas, `NDeltas = 0`. -/
def zeroChunk : Chunk :=
  { Metrics := [{ Key := "start", Value := 2000, Deltas := [] }], NDeltas := 0 }

/-- A chunk without a start metric, whose only metric has no deltas. -/
def noStartChunk : Chunk :=
  { Metrics := [{ Key := "end", Value := 4000, Deltas := [] }], NDeltas := 0 }

/-- The clock `t` of the walk over the start metric `m` after its first `i`
iterations: `t := mst` before the loop, and `t += int64(m.Deltas[k]) / 1000` in
iteration `k`. -/
def clock (m : Metric) (i : Nat) : Int :=
  (m.Deltas.take i).foldl (fun t d => wrap64 (t + d.tdiv 1000)) (mst m)

/-- The time of sample `i` in seconds as `Clip` reconstructs it for `met`:
`(int64(m.Value) + int64(sum(m.Deltas[:i]...))) / 1000`. -/
def sampleSec (m : Metric) (i : Nat) : Int :=
  (wrap64 (m.Value + sum (m.Deltas.take i))).tdiv 1000

/-- A start metric whose last sample time does not fit in 64 bits: `Value` is
the largest `int64` and the only delta is 1000. -/
def overflowMetric : Metric :=
  { Key := "start", Value := 9223372036854775807, Deltas := [1000] }

/-! ## The pipeline of `Chunks`

`Chunks` starts two goroutines, `errCh <- readDiagnostic(r, ch)` and
`errCh <- readChunks(ch, c)`, and receives their results.  The channels `ch`,
`c` and `errCh` are unbuffered: a send and the matching receive are one step.
The stage functions `readDiagnostic` and `readChunks` are not part of `ftdc.go`:
what the stages do is modelled from the spec (see `step`); the coordinator is
the receive loop of `Chunks`.
-/

/-- Where the goroutine of a stage is: its stage function is still running, or
it has returned `res` and the goroutine waits to send it on `errCh`, or the
result has been received. -/
inductive Stage (E : Type) where
  | running
  | sending (res : Option E)
  | finished

/-- Counts a stage whose result has been received: 1 when it is finished,
else 0. -/
def Stage.done {E : Type} : Stage E → Nat
  | Stage.finished => 1
  | _ => 0

/-- Steps the stage still has to take: 2 when running, 1 when sending. -/
def Stage.left {E : Type} : Stage E → Nat
  | Stage.running => 2
  | Stage.sending _ => 1
  | Stage.finished => 0

/-- State of the pipeline.  `input` are the records of the stream that the
Document Source has not sent on `ch` yet, `streamErr` the error the stream ends
with (nil at a clean end); `held` is the chunk the Chunk Decoder has decoded and
not sent yet; `out` are the chunks the caller has received on the output
channel, oldest first; `ret` is the value `Chunks` has returned, if it has. -/
structure Pipeline (R E : Type) where
  input : List R
  streamErr : Option E
  source : Stage E
  decoder : Stage E
  held : Option Chunk
  chClosed : Bool
  out : List Chunk
  outClosed : Bool
  ret : Option (Option E)

/-- The steps of the pipeline. -/
inductive Action where
  /-- The source sends the next record on `ch` and the decoder receives it. -/
  | pass
  /-- The decoder sends the chunk it holds and the caller receives it. -/
  | emit
  /-- The source reaches the end of the stream, closes `ch` and returns. -/
  | eof
  /-- The decoder finds `ch` closed, closes the output channel and returns. -/
  | drain
  /-- `err := <-errCh` receives the result of the source. -/
  | recvSource
  /-- `err := <-errCh` receives the result of the decoder. -/
  | recvDecoder
  /-- The loop of `Chunks` is over: `return nil`. -/
  | finish
  deriving DecidableEq

/-- The receive `err := <-errCh` of a result `res` in `Chunks`, followed by
`if err != nil { return err }`. -/
def received {E : Type} (res : Option E) : Option (Option E) :=
  match res with
  | some err => some (some err)
  | none => none

/-- Modelled from the spec: `readDiagnostic` and `readChunks` are not part of
`ftdc.go`.  By the spec the Document Source produces the records of the stream
in order, closes its output at the end of the stream and surfaces a stream
error; the Chunk Decoder decodes each record (`decode`) and emits one chunk per
record, in order, stops at a decode error without emitting the chunk, and the
output channel is closed when decoding finishes or fails.  The coordinator is
the loop of `Chunks`: it receives on `errCh` while it has received fewer than
two nil results and has not returned.  `step a s` is the state after the step
`a`, `none` when `a` cannot happen in `s`. -/
def step {R E : Type} (decode : R → Except E Chunk) (a : Action) (s : Pipeline R E) :
    Option (Pipeline R E) :=
  match a with
  | Action.pass =>
    match s.source, s.decoder, s.held, s.input with
    | Stage.running, Stage.running, none, r :: rest =>
      match decode r with
      | Except.ok c => some { s with input := rest, held := some c }
      | Except.error err =>
        some { s with input := rest, decoder := Stage.sending (some err), outClosed := true }
    | _, _, _, _ => none
  | Action.emit =>
    match s.decoder, s.held with
    | Stage.running, some c => some { s with held := none, out := s.out ++ [c] }
    | _, _ => none
  | Action.eof =>
    match s.source, s.input with
    | Stage.running, [] =>
      some { s with source := Stage.sending s.streamErr, chClosed := true }
    | _, _ => none
  | Action.drain =>
    match s.decoder, s.held, s.chClosed with
    | Stage.running, none, true =>
      some { s with decoder := Stage.sending none, outClosed := true }
    | _, _, _ => none
  | Action.recvSource =>
    match s.source, s.ret with
    | Stage.sending res, none =>
      if s.source.done + s.decoder.done < 2 then
        some { s with source := Stage.finished, ret := received res }
      else none
    | _, _ => none
  | Action.recvDecoder =>
    match s.decoder, s.ret with
    | Stage.sending res, none =>
      if s.source.done + s.decoder.done < 2 then
        some { s with decoder := Stage.finished, ret := received res }
      else none
    | _, _ => none
  | Action.finish =>
    match s.source, s.decoder, s.ret with
    | Stage.finished, Stage.finished, none => some { s with ret := some none }
    | _, _, _ => none

/-- The pipeline after the steps of a schedule, `none` when one of them cannot
happen. -/
def run {R E : Type} (decode : R → Except E Chunk) :
    List Action → Pipeline R E → Option (Pipeline R E)
  | [], s => some s
  | a :: rest, s =>
    match step decode a s with
    | none => none
    | some t => run decode rest t

/-- The pipeline when `Chunks` is called on a stream with the given records and
end. -/
def start {R E : Type} (input : List R) (streamErr : Option E) : Pipeline R E :=
  { input := input, streamErr := streamErr, source := Stage.running,
    decoder := Stage.running, held := none, chClosed := false, out := [],
    outClosed := false, ret := none }

/-- Number of steps the pipeline can still take, at most. -/
def stepsLeft {R E : Type} (s : Pipeline R E) : Nat :=
  2 * s.input.length + s.held.toList.length + s.source.left + s.decoder.left +
    (if s.ret.isSome then 0 else 1)

/-- What holds of every state of a pipeline run on a stream without error whose
records all decode. -/
structure Sound {R E : Type} (decode : R → Except E Chunk) (all : List R)
    (s : Pipeline R E) : Prop where
  data : (s.out ++ s.held.toList).map Except.ok ++ s.input.map decode = all.map decode
  wf : ∀ r ∈ s.input, ∃ c, decode r = Except.ok c
  noErr : s.streamErr = none
  src : (s.source = Stage.running ∧ s.chClosed = false) ∨
    (s.input = [] ∧ s.chClosed = true ∧
      (s.source = Stage.sending none ∨ s.source = Stage.finished))
  dec : s.decoder = Stage.running ∨
    (s.input = [] ∧ s.held = none ∧ s.chClosed = true ∧ s.outClosed = true ∧
      (s.decoder = Stage.sending none ∨ s.decoder = Stage.finished))
  returned : ∀ r, s.ret = some r →
    r = none ∧ s.source = Stage.finished ∧ s.decoder = Stage.finished

/-- A record type for the pipeline scenario: the record `k` decodes to the
chunk without metrics whose `NDeltas` is `k`. -/
def decodeNat (k : Nat) : Except String Chunk :=
  Except.ok { Metrics := [], NDeltas := k }

/-! ## Lemmas on the first loop -/

theorem scan_of_firstStart (n st et : Int) (ms : List Metric) (m : Metric)
    (hm : firstStart ms = some m) : scan n st et ms = scanStart n st et m := by
  induction ms with
  | nil => simp [firstStart] at hm
  | cons a rest ih =>
    by_cases ha : a.Key = "start"
    · have hb : (a.Key == "start") = true := by simpa using ha
      have : a = m := by
        rw [firstStart, List.find?_cons, hb] at hm
        exact Option.some.inj hm
      subst this
      simp [scan, ha]
    · have hb : (a.Key == "start") = false := by simpa using ha
      have hrest : firstStart rest = some m := by
        rw [firstStart, List.find?_cons, hb] at hm
        exact hm
      simp [scan, ha, ih hrest]

theorem scan_of_firstStart_none (n st et : Int) (ms : List Metric)
    (hm : firstStart ms = none) : scan n st et ms = Scan.indices 0 0 := by
  induction ms with
  | nil => rfl
  | cons a rest ih =>
    by_cases ha : a.Key = "start"
    · have hb : (a.Key == "start") = true := by simpa using ha
      rw [firstStart, List.find?_cons, hb] at hm
      exact absurd hm (by simp)
    · have hb : (a.Key == "start") = false := by simpa using ha
      have hrest : firstStart rest = none := by
        rw [firstStart, List.find?_cons, hb] at hm
        exact hm
      simp [scan, ha, ih hrest]

theorem scanStart_outside_iff (n st et : Int) (m : Metric) :
    scanStart n st et m = Scan.outside ↔ (met m < st ∨ mst m > et) := by
  unfold scanStart
  by_cases h1 : met m < st ∨ mst m > et
  · simp [h1]
  · by_cases h2 : mst m > st ∧ met m < et
    · simp [h1, h2]
    · simp only [h1, iff_false]
      have h1b : (decide (met m < st) || decide (mst m > et)) = false := by
        simpa using h1
      have h2b : (decide (mst m > st) && decide (met m < et)) = false := by
        simpa using h2
      rw [h1b, h2b]
      simp only [Bool.false_eq_true, if_false]
      cases walk m.Deltas st et n.toNat 0 (mst m) 0 0 with
      | none => simp
      | some p => simp

theorem scanStart_inside (n st et : Int) (m : Metric)
    (hout : ¬ (met m < st ∨ mst m > et)) (hin : mst m > st ∧ met m < et) :
    scanStart n st et m = Scan.inside := by
  have h1b : (decide (met m < st) || decide (mst m > et)) = false := by
    simpa using hout
  have h2b : (decide (mst m > st) && decide (met m < et)) = true := by
    simpa using hin
  unfold scanStart
  rw [h1b, h2b]
  simp

/-- The first loop never changes the chunk: when `Clip` returns, the metrics
are those it was called on. -/
theorem Clip_false_scan (c r : Chunk) (st et : Int)
    (h : Clip c st et = some (false, r)) :
    scan c.NDeltas st et c.Metrics = Scan.outside ∧ r = c := by
  unfold Clip at h
  split at h
  · rename_i hs
    exact ⟨hs, ((Prod.mk.inj (Option.some.inj h)).2).symm⟩
  · exact absurd (Prod.mk.inj (Option.some.inj h)).1 (by decide)
  · exact absurd h (by simp)
  · split at h
    · exact absurd h (by simp)
    · exact absurd (Prod.mk.inj (Option.some.inj h)).1 (by decide)

/-- When `Clip` returns `true`, the first loop did not find the chunk outside
the range, and the metrics after the call are the metrics before it. -/
theorem Clip_true_scan (c r : Chunk) (st et : Int)
    (h : Clip c st et = some (true, r)) :
    scan c.NDeltas st et c.Metrics ≠ Scan.outside ∧ r.Metrics = c.Metrics := by
  unfold Clip at h
  split at h
  · exact absurd (Prod.mk.inj (Option.some.inj h)).1 (by decide)
  · rename_i hs
    rw [← (Prod.mk.inj (Option.some.inj h)).2]
    exact ⟨by rw [hs]; simp, rfl⟩
  · exact absurd h (by simp)
  · rename_i si ei hs
    split at h
    · exact absurd h (by simp)
    · rw [← (Prod.mk.inj (Option.some.inj h)).2]
      exact ⟨by rw [hs]; simp, rfl⟩

/-! ## Lemmas on the walk and the second loop -/

/-- How `Clip` returns: by one of the early returns, with the chunk as it was,
or after the second loop, with `NDeltas = ei - si`. -/
theorem Clip_some_cases (c r : Chunk) (b : Bool) (st et : Int)
    (h : Clip c st et = some (b, r)) :
    (scan c.NDeltas st et c.Metrics = Scan.outside ∧ b = false ∧ r = c) ∨
    (scan c.NDeltas st et c.Metrics = Scan.inside ∧ b = true ∧ r = c) ∨
    (∃ si ei, scan c.NDeltas st et c.Metrics = Scan.indices si ei ∧ b = true ∧
      rebaseAll si ei c.Metrics = some () ∧ r = { c with NDeltas := ei - si }) := by
  unfold Clip at h
  split at h
  · rename_i hs
    have h2 := Prod.mk.inj (Option.some.inj h)
    exact Or.inl ⟨hs, h2.1.symm, h2.2.symm⟩
  · rename_i hs
    have h2 := Prod.mk.inj (Option.some.inj h)
    exact Or.inr (Or.inl ⟨hs, h2.1.symm, h2.2.symm⟩)
  · exact absurd h (by simp)
  · rename_i si ei hs
    split at h
    · exact absurd h (by simp)
    · rename_i u hu
      have h2 := Prod.mk.inj (Option.some.inj h)
      exact Or.inr (Or.inr ⟨si, ei, hs, h2.1.symm, hu, h2.2.symm⟩)

/-- The slice expressions of the second loop's body are in range exactly when
`0 ≤ si ≤ ei + 1 ≤ len(m.Deltas)`. -/
theorem rebase_isSome_iff (si ei : Int) (m : Metric) :
    (∃ q, rebase si ei m = some q) ↔
      (0 ≤ si ∧ si ≤ ei + 1 ∧ ei + 1 ≤ (m.Deltas.length : Int)) := by
  unfold rebase
  by_cases h1 : 0 ≤ si ∧ si ≤ (m.Deltas.length : Int)
  · rw [if_pos h1]
    by_cases h2 : si ≤ ei + 1 ∧ ei + 1 ≤ (m.Deltas.length : Int)
    · simp only [if_pos h2]
      exact ⟨fun _ => ⟨h1.1, h2.1, h2.2⟩, fun _ => ⟨_, rfl⟩⟩
    · simp only [if_neg h2]
      constructor
      · rintro ⟨q, hq⟩
        exact absurd hq (by simp)
      · intro h
        exact absurd ⟨h.2.1, h.2.2⟩ h2
  · rw [if_neg h1]
    constructor
    · rintro ⟨q, hq⟩
      exact absurd hq (by simp)
    · intro h
      exact absurd ⟨h.1, by omega⟩ h1

/-- The second loop completes exactly when the slice expressions are in range
for every metric. -/
theorem rebaseAll_eq_some_iff (si ei : Int) (ms : List Metric) :
    rebaseAll si ei ms = some () ↔
      ∀ m ∈ ms, 0 ≤ si ∧ si ≤ ei + 1 ∧ ei + 1 ≤ (m.Deltas.length : Int) := by
  induction ms with
  | nil => simp [rebaseAll]
  | cons a rest ih =>
    have ha := rebase_isSome_iff si ei a
    cases hr : rebase si ei a with
    | none =>
      rw [hr] at ha
      simp only [rebaseAll, hr]
      constructor
      · intro h
        exact absurd h (by simp)
      · intro h
        have := ha.2 (h a (List.mem_cons_self a rest))
        obtain ⟨q, hq⟩ := this
        exact absurd hq (by simp)
    | some q =>
      rw [hr] at ha
      have hb := ha.1 ⟨q, rfl⟩
      simp only [rebaseAll, hr]
      rw [ih]
      constructor
      · intro h m hm
        rcases List.mem_cons.1 hm with rfl | hm2
        · exact hb
        · exact h m hm2
      · intro h m hm
        exact h m (List.mem_cons_of_mem a hm)

/-- The walk over `k` iterations from index `i` does not leave the slice when
`i + k ≤ len(ds)`; each iteration adds at most one to `si`, and one to `ei`
unless it is the one that breaks. -/
theorem walk_bounds (ds : List Int) (st et : Int) :
    ∀ (k i : Nat) (t si ei : Int), i + k ≤ ds.length →
      ∃ si2 ei2, walk ds st et k i t si ei = some (si2, ei2) ∧
        si ≤ si2 ∧ si2 ≤ si + k ∧ ei ≤ ei2 ∧ ei2 ≤ ei + k ∧ si2 - si ≤ ei2 - ei + 1 := by
  intro k
  induction k with
  | zero =>
    intro i t si ei _
    exact ⟨si, ei, rfl, by omega, by simp, by omega, by simp, by omega⟩
  | succ k ih =>
    intro i t si ei hik
    have hi : i < ds.length := by omega
    have hget : ds.get? i = some (ds.get ⟨i, hi⟩) := List.get?_eq_get hi
    simp only [walk, hget]
    by_cases het : wrap64 (t + (ds.get ⟨i, hi⟩).tdiv 1000) < et
    · simp only [het, if_true]
      by_cases hst : wrap64 (t + (ds.get ⟨i, hi⟩).tdiv 1000) < st
      · simp only [hst, if_true]
        obtain ⟨a, b, hw, h1, h2, h3, h4, h5⟩ :=
          ih (i + 1) (wrap64 (t + (ds.get ⟨i, hi⟩).tdiv 1000)) (si + 1) (ei + 1) (by omega)
        refine ⟨a, b, hw, ?_, ?_, ?_, ?_, ?_⟩ <;> push_cast <;> omega
      · simp only [hst, if_false]
        obtain ⟨a, b, hw, h1, h2, h3, h4, h5⟩ :=
          ih (i + 1) (wrap64 (t + (ds.get ⟨i, hi⟩).tdiv 1000)) si (ei + 1) (by omega)
        refine ⟨a, b, hw, ?_, ?_, ?_, ?_, ?_⟩ <;> push_cast <;> omega
    · simp only [het, if_false]
      by_cases hst : wrap64 (t + (ds.get ⟨i, hi⟩).tdiv 1000) < st
      · simp only [hst, if_true]
        refine ⟨si + 1, ei, rfl, ?_, ?_, ?_, ?_, ?_⟩ <;> push_cast <;> omega
      · simp only [hst, if_false]
        refine ⟨si, ei, rfl, ?_, ?_, ?_, ?_, ?_⟩ <;> push_cast <;> omega

/-- On a start metric whose number of deltas is `n`, the first loop does not
panic, and the indices it ends with satisfy `0 ≤ si ≤ ei + 1 ≤ n`. -/
theorem scanStart_bounds (n st et : Int) (m : Metric)
    (hn : (m.Deltas.length : Int) = n) :
    scanStart n st et m ≠ Scan.panic ∧
    ∀ si ei, scanStart n st et m = Scan.indices si ei →
      0 ≤ si ∧ si ≤ ei + 1 ∧ ei + 1 ≤ n := by
  obtain ⟨a, b, hw, h1, h2, h3, h4, h5⟩ :=
    walk_bounds m.Deltas st et n.toNat 0 (mst m) 0 0 (by omega)
  have hk : (n.toNat : Int) = n := Int.toNat_of_nonneg (by omega)
  unfold scanStart
  rw [hw]
  by_cases c1 : (decide (met m < st) || decide (mst m > et)) = true
  · rw [if_pos c1]
    exact ⟨by simp, fun si ei h => absurd h (by simp)⟩
  · rw [if_neg c1]
    by_cases c2 : (decide (mst m > st) && decide (met m < et)) = true
    · rw [if_pos c2]
      exact ⟨by simp, fun si ei h => absurd h (by simp)⟩
    · rw [if_neg c2]
      refine ⟨by simp, fun si ei h => ?_⟩
      have h6 := Scan.indices.inj h
      obtain ⟨rfl, h7⟩ := h6
      rw [← h7]
      unfold adjust
      split <;> omega

/-- A chunk with a metric keyed `"start"` has a first one, and it is one of its
metrics. -/
theorem firstStart_of_exists (ms : List Metric)
    (h : ∃ m ∈ ms, m.Key = "start") : ∃ m, firstStart ms = some m ∧ m ∈ ms := by
  have hs : (firstStart ms).isSome = true := by
    unfold firstStart
    rw [List.find?_isSome]
    obtain ⟨m, hm, hk⟩ := h
    exact ⟨m, hm, by simpa using hk⟩
  obtain ⟨m, hm⟩ := Option.isSome_iff_exists.1 hs
  exact ⟨m, hm, List.mem_of_find?_eq_some hm⟩

/-- A chunk without a metric keyed `"start"` has no first one. -/
theorem firstStart_none_of_forall (ms : List Metric)
    (h : ∀ m ∈ ms, m.Key ≠ "start") : firstStart ms = none := by
  unfold firstStart
  rw [List.find?_eq_none]
  intro x hx
  simpa using h x hx

/-! ## Lemmas on the clock of the walk -/

theorem wrap64_of_range (x : Int) (h1 : -9223372036854775808 ≤ x)
    (h2 : x < 9223372036854775808) : wrap64 x = x := by
  unfold wrap64
  rw [Int.emod_eq_of_lt (by omega) (by omega)]
  omega

/-- Iteration `i` of the walk, started with the clock at `clock m i`, compares
`clock m (i + 1)` with `st` and `et`. -/
theorem walk_step_clock (m : Metric) (st et : Int) (k i : Nat) (si ei : Int)
    (hi : i < m.Deltas.length) :
    walk m.Deltas st et (k + 1) i (clock m i) si ei =
      if clock m (i + 1) < et then
        walk m.Deltas st et k (i + 1) (clock m (i + 1))
          (if clock m (i + 1) < st then si + 1 else si) (ei + 1)
      else some (if clock m (i + 1) < st then si + 1 else si, ei) := by
  have hget : m.Deltas.get? i = some (m.Deltas.get ⟨i, hi⟩) := List.get?_eq_get hi
  have hc : clock m (i + 1) = wrap64 (clock m i + (m.Deltas.get ⟨i, hi⟩).tdiv 1000) := by
    unfold clock
    rw [List.take_succ, List.foldl_append]
    have : m.Deltas[i]? = some (m.Deltas.get ⟨i, hi⟩) := by
      simp [List.getElem?_eq_getElem hi]
    rw [this]
    rfl
  simp only [walk, hget, hc]

/-- The modelled `sum` is the sum of the list when the numbers are not
negative and the total fits in 64 bits. -/
theorem foldl_wrap_eq (xs : List Int) :
    ∀ acc : Int, 0 ≤ acc → (∀ d ∈ xs, 0 ≤ d) → acc + xs.sum < 9223372036854775808 →
      xs.foldl (fun a x => wrap64 (a + x)) acc = acc + xs.sum := by
  induction xs with
  | nil => intro acc _ _ _; simp
  | cons d rest ih =>
    intro acc hacc hnn hlt
    have hd : 0 ≤ d := hnn d (List.mem_cons_self d rest)
    have hrest : ∀ x ∈ rest, 0 ≤ x := fun x hx => hnn x (List.mem_cons_of_mem d hx)
    have hrs : 0 ≤ rest.sum := List.sum_nonneg hrest
    rw [List.sum_cons] at hlt
    rw [List.foldl_cons, wrap64_of_range _ (by omega) (by omega),
      ih (acc + d) (by omega) hrest (by omega), List.sum_cons]
    omega

theorem sum_eq_list_sum (xs : List Int) (hnn : ∀ d ∈ xs, 0 ≤ d)
    (hlt : xs.sum < 9223372036854775808) : sum xs = xs.sum := by
  unfold sum
  rw [foldl_wrap_eq xs 0 (le_refl 0) hnn (by omega)]
  omega

/-- The clock against the exact time, over any run of deltas `ds`: started at
`t ≤ v / 1000`, the clock after `ds` is `t` plus the truncated deltas, and it
is at most `(v + sum ds) / 1000`. -/
theorem clock_le_exact (ds : List Int) :
    ∀ t v : Int, 0 ≤ t → 0 ≤ v → t ≤ v / 1000 → (∀ d ∈ ds, 0 ≤ d) →
      v + ds.sum < 9223372036854775808 →
      ds.foldl (fun t d => wrap64 (t + d.tdiv 1000)) t
          = t + (ds.map (fun d => d.tdiv 1000)).sum ∧
      ds.foldl (fun t d => wrap64 (t + d.tdiv 1000)) t ≤ (v + ds.sum) / 1000 := by
  induction ds with
  | nil => intro t v _ _ h _ _; simpa using h
  | cons d rest ih =>
    intro t v ht hv hle hnn hlt
    have hd : 0 ≤ d := hnn d (List.mem_cons_self d rest)
    have hrest : ∀ x ∈ rest, 0 ≤ x := fun x hx => hnn x (List.mem_cons_of_mem d hx)
    have hrs : 0 ≤ rest.sum := List.sum_nonneg hrest
    rw [List.sum_cons] at hlt
    have hdiv : d.tdiv 1000 = d / 1000 := Int.tdiv_eq_ediv hd (by decide)
    have hw : wrap64 (t + d.tdiv 1000) = t + d / 1000 := by
      rw [hdiv]
      exact wrap64_of_range _ (by omega) (by omega)
    obtain ⟨h1, h2⟩ := ih (t + d / 1000) (v + d) (by omega) (by omega) (by omega) hrest
      (by omega)
    rw [List.foldl_cons, hw, List.map_cons, List.sum_cons, List.sum_cons, hdiv]
    constructor
    · rw [h1]; omega
    · have : v + (d + rest.sum) = v + d + rest.sum := by omega
      rw [this]
      exact h2

/-- With deltas that are multiples of 1000 and the clock started at `v / 1000`,
the clock is exact. -/
theorem clock_eq_exact (ds : List Int) :
    ∀ t v : Int, 0 ≤ t → 0 ≤ v → t = v / 1000 → (∀ d ∈ ds, 0 ≤ d) →
      (∀ d ∈ ds, (1000 : Int) ∣ d) → v + ds.sum < 9223372036854775808 →
      ds.foldl (fun t d => wrap64 (t + d.tdiv 1000)) t = (v + ds.sum) / 1000 := by
  induction ds with
  | nil => intro t v _ _ h _ _ _; simpa using h
  | cons d rest ih =>
    intro t v ht hv hle hnn hdvd hlt
    have hd : 0 ≤ d := hnn d (List.mem_cons_self d rest)
    have hd2 : (1000 : Int) ∣ d := hdvd d (List.mem_cons_self d rest)
    have hrest : ∀ x ∈ rest, 0 ≤ x := fun x hx => hnn x (List.mem_cons_of_mem d hx)
    have hrest2 : ∀ x ∈ rest, (1000 : Int) ∣ x :=
      fun x hx => hdvd x (List.mem_cons_of_mem d hx)
    have hrs : 0 ≤ rest.sum := List.sum_nonneg hrest
    rw [List.sum_cons] at hlt
    have hdiv : d.tdiv 1000 = d / 1000 := Int.tdiv_eq_ediv hd (by decide)
    have hw : wrap64 (t + d.tdiv 1000) = t + d / 1000 := by
      rw [hdiv]
      exact wrap64_of_range _ (by omega) (by omega)
    have h1 := ih (t + d / 1000) (v + d) (by omega) (by omega) (by omega) hrest hrest2
      (by omega)
    rw [List.foldl_cons, hw, List.sum_cons, h1]
    have : v + (d + rest.sum) = v + d + rest.sum := by omega
    rw [this]

/-! ## Lemmas on the pipeline -/

theorem Sound_start {R E : Type} (decode : R → Except E Chunk) (input : List R)
    (hwf : ∀ r ∈ input, ∃ c, decode r = Except.ok c) :
    Sound decode input (start input none) :=
  ⟨by simp [start], hwf, rfl, Or.inl ⟨rfl, rfl⟩, Or.inl rfl,
    fun r h => by simp [start] at h⟩

theorem Sound_step {R E : Type} (decode : R → Except E Chunk) (all : List R)
    (a : Action) (s t : Pipeline R E) (hS : Sound decode all s)
    (h : step decode a s = some t) : Sound decode all t := by
  obtain ⟨input, streamErr, source, decoder, held, chClosed, out, outClosed, ret⟩ := s
  obtain ⟨hdata, hwf, hno, hsrc, hdec, hret⟩ := hS
  simp only at hdata hwf hno hsrc hdec hret
  cases a with
  | pass =>
    cases source <;> cases decoder <;> cases held <;> cases input <;> simp [step] at h
    rename_i r rest
    obtain ⟨c, hc⟩ := hwf r (List.mem_cons_self _ _)
    rw [hc] at h
    simp only [Option.some.injEq] at h
    subst h
    have hcl : chClosed = false := by
      rcases hsrc with ⟨_, h2⟩ | ⟨h1, _⟩
      · exact h2
      · exact absurd h1 (by simp)
    refine ⟨?_, fun x hx => hwf x (List.mem_cons_of_mem _ hx), hno, Or.inl ⟨rfl, hcl⟩,
      Or.inl rfl, hret⟩
    simpa [hc] using hdata
  | emit =>
    cases decoder <;> cases held <;> simp [step] at h
    subst h
    refine ⟨?_, hwf, hno, hsrc, Or.inl rfl, hret⟩
    simpa using hdata
  | eof =>
    cases source <;> cases input <;> simp [step] at h
    subst h
    subst hno
    refine ⟨hdata, hwf, rfl, Or.inr ⟨rfl, rfl, Or.inl rfl⟩, ?_, ?_⟩
    · rcases hdec with hd | ⟨_, h2, _, h4, h5⟩
      · exact Or.inl hd
      · exact Or.inr ⟨rfl, h2, rfl, h4, h5⟩
    · intro r hr
      have := hret r hr
      exact absurd this.2.1 (by simp)
  | drain =>
    cases decoder <;> cases held <;> cases chClosed <;> simp [step] at h
    subst h
    have hin : input = [] := by
      rcases hsrc with ⟨_, h2⟩ | ⟨h1, _⟩
      · exact absurd h2 (by simp)
      · exact h1
    refine ⟨hdata, hwf, hno, hsrc, Or.inr ⟨hin, rfl, rfl, rfl, Or.inl rfl⟩, ?_⟩
    intro r hr
    have := hret r hr
    exact absurd this.2.2 (by simp)
  | recvSource =>
    cases source with
    | running => simp [step] at h
    | finished => simp [step] at h
    | sending res =>
      cases ret with
      | some x => simp [step] at h
      | none =>
        have hlt : (Stage.sending res : Stage E).done + decoder.done < 2 := by
          cases decoder <;> simp [Stage.done]
        simp only [step] at h
        rw [if_pos hlt] at h
        simp only [Option.some.injEq] at h
        subst h
        have hres : res = none := by
          rcases hsrc with ⟨h1, _⟩ | ⟨_, _, h3 | h3⟩
          · exact absurd h1 (by simp)
          · exact Stage.sending.inj h3
          · exact absurd h3 (by simp)
        subst hres
        have hsrc2 : input = [] ∧ chClosed = true := by
          rcases hsrc with ⟨h1, _⟩ | ⟨h1, h2, _⟩
          · exact absurd h1 (by simp)
          · exact ⟨h1, h2⟩
        have hdec2 : decoder = Stage.running ∨
            (input = [] ∧ held = none ∧ chClosed = true ∧ outClosed = true ∧
              (decoder = Stage.sending none ∨ decoder = Stage.finished)) := hdec
        refine ⟨hdata, hwf, hno, Or.inr ⟨hsrc2.1, hsrc2.2, Or.inr rfl⟩, hdec2, ?_⟩
        intro r hr
        simp [received] at hr
  | recvDecoder =>
    cases decoder with
    | running => simp [step] at h
    | finished => simp [step] at h
    | sending res =>
      cases ret with
      | some x => simp [step] at h
      | none =>
        have hlt : source.done + (Stage.sending res : Stage E).done < 2 := by
          cases source <;> simp [Stage.done]
        simp only [step] at h
        rw [if_pos hlt] at h
        simp only [Option.some.injEq] at h
        subst h
        have hd : input = [] ∧ held = none ∧ chClosed = true ∧ outClosed = true ∧
            res = none := by
          rcases hdec with h1 | ⟨h1, h2, h3, h4, h5 | h5⟩
          · exact absurd h1 (by simp)
          · exact ⟨h1, h2, h3, h4, Stage.sending.inj h5⟩
          · exact absurd h5 (by simp)
        obtain ⟨h1, h2, h3, h4, hres⟩ := hd
        subst hres
        have hsrc2 : (source = Stage.running ∧ chClosed = false) ∨
            (input = [] ∧ chClosed = true ∧
              (source = Stage.sending none ∨ source = Stage.finished)) := hsrc
        refine ⟨hdata, hwf, hno, hsrc2, Or.inr ⟨h1, h2, h3, h4, Or.inr rfl⟩, ?_⟩
        intro r hr
        simp [received] at hr
  | finish =>
    cases source <;> cases decoder <;> cases ret <;> simp [step] at h
    subst h
    refine ⟨hdata, hwf, hno, hsrc, hdec, ?_⟩
    intro r hr
    simp only [Option.some.injEq] at hr
    exact ⟨hr.symm, rfl, rfl⟩

theorem Sound_run {R E : Type} (decode : R → Except E Chunk) (all : List R)
    (sched : List Action) :
    ∀ s t : Pipeline R E, Sound decode all s → run decode sched s = some t →
      Sound decode all t := by
  induction sched with
  | nil =>
    intro s t hS h
    simp only [run, Option.some.injEq] at h
    subst h
    exact hS
  | cons a rest ih =>
    intro s t hS h
    simp only [run] at h
    cases hst : step decode a s with
    | none => rw [hst] at h; exact absurd h (by simp)
    | some u =>
      rw [hst] at h
      exact ih u t (Sound_step decode all a s u hS hst) h

/-- In a sound state where `Chunks` has returned, it has returned nil, the
caller has received the decoding of every record, in order, and the output
channel is closed. -/
theorem Sound_returned {R E : Type} (decode : R → Except E Chunk) (all : List R)
    (s : Pipeline R E) (r : Option E) (hS : Sound decode all s) (hr : s.ret = some r) :
    r = none ∧ s.out.map Except.ok = all.map decode ∧ s.outClosed = true := by
  obtain ⟨h1, _, h3⟩ := hS.returned r hr
  rcases hS.dec with hd | ⟨hin, hheld, _, hoc, _⟩
  · rw [h3] at hd
    exact absurd hd (by simp)
  · have hdata := hS.data
    rw [hin, hheld] at hdata
    exact ⟨h1, by simpa using hdata, hoc⟩

/-- A sound state in which `Chunks` has not returned has a step to take. -/
theorem Sound_progress {R E : Type} (decode : R → Except E Chunk) (all : List R)
    (s : Pipeline R E) (hS : Sound decode all s) (hr : s.ret = none) :
    ∃ a t, step decode a s = some t := by
  obtain ⟨input, streamErr, source, decoder, held, chClosed, out, outClosed, ret⟩ := s
  obtain ⟨hdata, hwf, hno, hsrc, hdec, hret⟩ := hS
  simp only at hdata hwf hno hsrc hdec hret hr
  subst hr
  cases decoder with
  | running =>
    cases held with
    | some c => exact ⟨Action.emit, _, rfl⟩
    | none =>
      cases source with
      | running =>
        cases input with
        | nil => exact ⟨Action.eof, _, rfl⟩
        | cons r rest =>
          obtain ⟨c, hc⟩ := hwf r (List.mem_cons_self _ _)
          refine ⟨Action.pass, ?_⟩
          simp only [step, hc]
          exact ⟨_, rfl⟩
      | sending res => exact ⟨Action.recvSource, _, rfl⟩
      | finished =>
        have hcl : chClosed = true := by
          rcases hsrc with ⟨h1, _⟩ | ⟨_, h2, _⟩
          · exact absurd h1 (by simp)
          · exact h2
        subst hcl
        exact ⟨Action.drain, _, rfl⟩
  | sending res =>
    cases source with
    | running => exact ⟨Action.recvDecoder, _, rfl⟩
    | sending res2 => exact ⟨Action.recvDecoder, _, rfl⟩
    | finished => exact ⟨Action.recvDecoder, _, rfl⟩
  | finished =>
    cases source with
    | running =>
      have hin : input = [] := by
        rcases hdec with h1 | ⟨h1, _⟩
        · exact absurd h1 (by simp)
        · exact h1
      subst hin
      exact ⟨Action.eof, _, rfl⟩
    | sending res => exact ⟨Action.recvSource, _, rfl⟩
    | finished => exact ⟨Action.finish, _, rfl⟩

/-- Every step uses up at least one of the steps left. -/
theorem stepsLeft_step {R E : Type} (decode : R → Except E Chunk) (a : Action)
    (s t : Pipeline R E) (h : step decode a s = some t) :
    stepsLeft t + 1 ≤ stepsLeft s := by
  have e1 : (Stage.running : Stage E).left = 2 := rfl
  have e2 : ∀ res : Option E, (Stage.sending res).left = 1 := fun _ => rfl
  have e3 : (Stage.finished : Stage E).left = 0 := rfl
  obtain ⟨input, streamErr, source, decoder, held, chClosed, out, outClosed, ret⟩ := s
  cases a with
  | pass =>
    cases source <;> cases decoder <;> cases held <;> cases input <;> simp [step] at h
    rename_i r rest
    cases hd : decode r with
    | ok c =>
      rw [hd] at h
      simp only [Option.some.injEq] at h
      subst h
      simp only [stepsLeft, e1, Option.toList, List.length_cons, List.length_nil]
      omega
    | error err =>
      rw [hd] at h
      simp only [Option.some.injEq] at h
      subst h
      simp only [stepsLeft, e1, e2, Option.toList, List.length_cons, List.length_nil]
      omega
  | emit =>
    cases decoder <;> cases held <;> simp [step] at h
    subst h
    simp only [stepsLeft, e1, Option.toList, List.length_cons, List.length_nil]
    omega
  | eof =>
    cases source <;> cases input <;> simp [step] at h
    subst h
    simp only [stepsLeft, e1, e2, List.length_nil]
    omega
  | drain =>
    cases decoder <;> cases held <;> cases chClosed <;> simp [step] at h
    subst h
    simp only [stepsLeft, e1, e2, Option.toList, List.length_nil]
    omega
  | recvSource =>
    cases source with
    | running => simp [step] at h
    | finished => simp [step] at h
    | sending res =>
      cases ret with
      | some x => simp [step] at h
      | none =>
        have hlt : (Stage.sending res : Stage E).done + decoder.done < 2 := by
          cases decoder <;> simp [Stage.done]
        simp only [step] at h
        rw [if_pos hlt] at h
        simp only [Option.some.injEq] at h
        subst h
        cases res <;>
          simp only [stepsLeft, e2, e3, received, Option.isSome, if_true, if_false,
            Bool.false_eq_true] <;> omega
  | recvDecoder =>
    cases decoder with
    | running => simp [step] at h
    | finished => simp [step] at h
    | sending res =>
      cases ret with
      | some x => simp [step] at h
      | none =>
        have hlt : source.done + (Stage.sending res : Stage E).done < 2 := by
          cases source <;> simp [Stage.done]
        simp only [step] at h
        rw [if_pos hlt] at h
        simp only [Option.some.injEq] at h
        subst h
        cases res <;>
          simp only [stepsLeft, e2, e3, received, Option.isSome, if_true, if_false,
            Bool.false_eq_true] <;> omega
  | finish =>
    cases source <;> cases decoder <;> cases ret <;> simp [step] at h
    subst h
    simp only [stepsLeft, e3, Option.isSome, if_true, if_false, Bool.false_eq_true]
    omega

/-- A schedule that runs is no longer than the number of steps left. -/
theorem run_length {R E : Type} (decode : R → Except E Chunk) (sched : List Action) :
    ∀ s t : Pipeline R E, run decode sched s = some t →
      sched.length + stepsLeft t ≤ stepsLeft s := by
  induction sched with
  | nil =>
    intro s t h
    simp only [run, Option.some.injEq] at h
    subst h
    simp
  | cons a rest ih =>
    intro s t h
    simp only [run] at h
    cases hst : step decode a s with
    | none => rw [hst] at h; exact absurd h (by simp)
    | some u =>
      rw [hst] at h
      have h1 := ih u t h
      have h2 := stepsLeft_step decode a s u hst
      simp only [List.length_cons]
      omega

/-- From a sound state the pipeline can be run until `Chunks` has returned. -/
theorem Sound_returns {R E : Type} (decode : R → Except E Chunk) (all : List R) :
    ∀ (n : Nat) (s : Pipeline R E), Sound decode all s → stepsLeft s ≤ n →
      ∃ sched t, run decode sched s = some t ∧ t.ret = some none := by
  intro n
  induction n with
  | zero =>
    intro s hS hn
    cases hr : s.ret with
    | some r =>
      have := (hS.returned r hr).1
      subst this
      exact ⟨[], s, rfl, hr⟩
    | none =>
      exfalso
      have : stepsLeft s ≥ 1 := by
        simp only [stepsLeft, hr, Option.isSome, if_false, Bool.false_eq_true]
        omega
      omega
  | succ n ih =>
    intro s hS hn
    cases hr : s.ret with
    | some r =>
      have := (hS.returned r hr).1
      subst this
      exact ⟨[], s, rfl, hr⟩
    | none =>
      obtain ⟨a, u, hu⟩ := Sound_progress decode all s hS hr
      have hlt := stepsLeft_step decode a s u hu
      obtain ⟨sched, t, hrun, hret⟩ :=
        ih u (Sound_step decode all a s u hS hu) (by omega)
      refine ⟨a :: sched, t, ?_, hret⟩
      simp only [run, hu]
      exact hrun

/-! ## Lemmas on `Map` -/

/-- Lookup in the map built by the pass of `Map` from the map `f`: the last
metric with the key if there is one, else what `f` had. -/
theorem foldl_set_lookup (ms : List Metric) (f : MetricMap) (k : String) :
    (ms.foldl (fun m x => m.set x.Key x) f) k
      = (ms.reverse.find? (fun x => x.Key == k)).or (f k) := by
  induction ms generalizing f with
  | nil => simp
  | cons a rest ih =>
    rw [List.foldl_cons, ih, List.reverse_cons, List.find?_append]
    cases rest.reverse.find? (fun x => x.Key == k) with
    | some v => simp
    | none =>
      by_cases hk : a.Key = k
      · simp [MetricMap.set, hk]
      · have hk2 : ¬ k = a.Key := fun hc => hk hc.symm
        simp [MetricMap.set, hk, hk2]

theorem Map_lookup (c : Chunk) (k : String) :
    (Map c).1 k = c.Metrics.reverse.find? (fun x => x.Key == k) := by
  show (c.Metrics.foldl (fun m x => m.set x.Key x) MetricMap.empty) k = _
  rw [foldl_set_lookup]
  simp [MetricMap.empty]

/-! ## Claims -/

/-- C1. For a chunk whose first metric keyed `"start"` is `m`, `Clip` returns
`false` exactly when `met m < st` or `mst m > et`, and whenever it returns
`false` the chunk after the call is the chunk before the call. -/
theorem Clip_false_iff_outside (c : Chunk) (st et : Int) (m : Metric)
    (hm : firstStart c.Metrics = some m) :
    ((∃ r, Clip c st et = some (false, r)) ↔ (met m < st ∨ mst m > et)) ∧
    (∀ r, Clip c st et = some (false, r) → r = c) := by
  refine ⟨⟨?_, ?_⟩, fun r h => (Clip_false_scan c r st et h).2⟩
  · rintro ⟨r, h⟩
    have hs := (Clip_false_scan c r st et h).1
    rw [scan_of_firstStart _ _ _ _ _ hm] at hs
    exact (scanStart_outside_iff _ _ _ _).1 hs
  · intro h
    refine ⟨c, ?_⟩
    have hs : scan c.NDeltas st et c.Metrics = Scan.outside := by
      rw [scan_of_firstStart _ _ _ _ _ hm]
      exact (scanStart_outside_iff _ _ _ _).2 h
    simp [Clip, hs]

/-- Witness of C1: the scenario chunk clipped to `[10s, 20s]`. -/
theorem Clip_false_iff_outside_witness :
    firstStart scenarioChunk.Metrics = some startMetric ∧
    ((∃ r, Clip scenarioChunk 10 20 = some (false, r)) ↔
      (met startMetric < 10 ∨ mst startMetric > 20)) ∧
    (∀ r, Clip scenarioChunk 10 20 = some (false, r) → r = scenarioChunk) :=
  ⟨by decide, Clip_false_iff_outside scenarioChunk 10 20 startMetric (by decide)⟩

/-- C6. Fast path: when the first start metric `m` is not outside the window
and `mst m > st` and `met m < et`, `Clip` returns `true` and the chunk after
the call is the chunk before the call. -/
theorem Clip_inside_unchanged (c : Chunk) (st et : Int) (m : Metric)
    (hm : firstStart c.Metrics = some m)
    (hout : ¬ (met m < st ∨ mst m > et)) (hin : mst m > st ∧ met m < et) :
    Clip c st et = some (true, c) := by
  have hs : scan c.NDeltas st et c.Metrics = Scan.inside := by
    rw [scan_of_firstStart _ _ _ _ _ hm]
    exact scanStart_inside _ _ _ _ hout hin
  simp [Clip, hs]

/-- Witness of C6: the scenario chunk clipped to `[0s, 10s]` is returned
unchanged with result `true`. -/
theorem Clip_inside_unchanged_witness :
    Clip scenarioChunk 0 10 = some (true, scenarioChunk) :=
  Clip_inside_unchanged scenarioChunk 0 10 startMetric (by decide) (by decide) (by decide)

/-- C2 (the code at the failing input). The scenario chunk satisfies the data
model and its sample times are 1 s, 2 s, 3 s, 4 s. `Clip` to `[3s, 4s]` returns
`true`, leaves the start metric as it was and sets `NDeltas = 1`: the sample at
3 s, which lies in the window and was a sample of the chunk, is not among the
times reconstructed from the start metric and the new `NDeltas`. -/
theorem Clip_drops_sample_in_window :
    (∀ m ∈ scenarioChunk.Metrics, (m.Deltas.length : Int) = scenarioChunk.NDeltas) ∧
    sampleTimes startMetric scenarioChunk.NDeltas = [1, 2, 3, 4] ∧
    Clip scenarioChunk 3 4 = some (true, { Metrics := [startMetric], NDeltas := 1 }) ∧
    sampleTimes startMetric 1 = [1, 2] ∧
    (3 : Int) ∉ sampleTimes startMetric 1 := by
  decide

/-- C3 (the code at the failing inputs). On the scenario chunk, `Clip` to
`[2s, 3s]` returns `true` with `NDeltas = 2` while the start metric keeps its
three deltas; on the chunk whose start metric has `Value = 1999` and
`Deltas = [1999]`, `Clip` to `[3s, 3s]` returns `true` with `NDeltas = -1`. -/
theorem Clip_breaks_invariant :
    (∀ m ∈ scenarioChunk.Metrics, (m.Deltas.length : Int) = scenarioChunk.NDeltas) ∧
    Clip scenarioChunk 2 3 = some (true, { Metrics := [startMetric], NDeltas := 2 }) ∧
    (startMetric.Deltas.length : Int) ≠ 2 ∧
    Clip { Metrics := [{ Key := "start", Value := 1999, Deltas := [1999] }], NDeltas := 1 } 3 3
      = some (true, { Metrics := [{ Key := "start", Value := 1999, Deltas := [1999] }],
                      NDeltas := -1 }) := by
  decide

/-- C4 (the code at the failing input). On the scenario chunk clipped to
`[3s, 4s]` the first loop ends with `si = 1`, `ei = 2`, and the body of the
second loop computes `Value = 2000`, `Deltas = [1000, 1000]` on its loop
variable; the chunk after the call has `NDeltas = ei - si = 1` and its start
metric still has `Value = 1000` and three deltas. -/
theorem Clip_rebase_not_stored :
    scan scenarioChunk.NDeltas 3 4 scenarioChunk.Metrics = Scan.indices 1 2 ∧
    rebase 1 2 startMetric
      = some { Key := "start", Value := 2000, Deltas := [1000, 1000] } ∧
    Clip scenarioChunk 3 4
      = some (true, { Metrics := [{ Key := "start", Value := 1000,
                                    Deltas := [1000, 1000, 1000] }], NDeltas := 1 }) := by
  decide

/-- C5, as stated, fails: on the scenario chunk clipped to `[2s, 3s]` the first
loop does not end with `si = 1`, `ei = 3`, and the chunk after the call is not
the one with `NDeltas = 2`, start `Value = 2000` and `Deltas = [1000, 1000]`. -/
theorem Clip_scenario_not_as_stated :
    ¬ (scan scenarioChunk.NDeltas 2 3 scenarioChunk.Metrics = Scan.indices 1 3 ∧
       Clip scenarioChunk 2 3
         = some (true, { Metrics := [{ Key := "start", Value := 2000,
                                       Deltas := [1000, 1000] }], NDeltas := 2 })) := by
  decide

/-- C5, amended. On the scenario chunk (`NDeltas = 3`, start `Value = 1000`,
`Deltas = [1000, 1000, 1000]`), `Clip` to `[2s, 3s]` returns `true`, the first
loop ends with `si = 0` and `ei = 2`, and the chunk is left with
`NDeltas = 2`. -/
theorem Clip_scenario :
    scan scenarioChunk.NDeltas 2 3 scenarioChunk.Metrics = Scan.indices 0 2 ∧
    ∃ r, Clip scenarioChunk 2 3 = some (true, r) ∧ r.NDeltas = 2 :=
  ⟨by decide, ⟨{ Metrics := [startMetric], NDeltas := 2 }, by decide, by decide⟩⟩

/-- C7, as stated, fails: the scenario chunk satisfies the data model, `Clip` to
`[2s, 3s]` returns `true` and yields the chunk with `NDeltas = 2`, and `Clip` of
that chunk to the same interval returns `true` and changes `NDeltas` to 1. -/
theorem Clip_not_idempotent :
    (∀ m ∈ scenarioChunk.Metrics, (m.Deltas.length : Int) = scenarioChunk.NDeltas) ∧
    Clip scenarioChunk 2 3 = some (true, { Metrics := [startMetric], NDeltas := 2 }) ∧
    Clip { Metrics := [startMetric], NDeltas := 2 } 2 3
      = some (true, { Metrics := [startMetric], NDeltas := 1 }) ∧
    Clip { Metrics := [startMetric], NDeltas := 2 } 2 3
      ≠ some (true, { Metrics := [startMetric], NDeltas := 2 }) := by
  decide

/-- C7, amended. If `Clip c s e` returns `true` and yields `r`, then for every
`s2 ≤ s` and `e ≤ e2` the call `Clip r s2 e2` does not return `false`, and when
the first start metric `m` lies strictly inside the wider window (`mst m > s2`
and `met m < e2`) it returns `true` and leaves `r` unchanged. -/
theorem Clip_widen (c r : Chunk) (s e s2 e2 : Int) (m : Metric)
    (hm : firstStart c.Metrics = some m)
    (h : Clip c s e = some (true, r)) (hs : s2 ≤ s) (he : e ≤ e2) :
    (∀ q, Clip r s2 e2 ≠ some (false, q)) ∧
    (mst m > s2 ∧ met m < e2 → Clip r s2 e2 = some (true, r)) := by
  obtain ⟨hno, hmet⟩ := Clip_true_scan c r s e h
  rw [scan_of_firstStart _ _ _ _ _ hm] at hno
  have hout : ¬ (met m < s ∨ mst m > e) := fun hc =>
    hno ((scanStart_outside_iff _ _ _ _).2 hc)
  have hout2 : ¬ (met m < s2 ∨ mst m > e2) := by
    intro hc
    apply hout
    rcases hc with hc | hc
    · exact Or.inl (by omega)
    · exact Or.inr (by omega)
  have hmr : firstStart r.Metrics = some m := by rw [hmet]; exact hm
  constructor
  · intro q hq
    have hsc := (Clip_false_scan r q s2 e2 hq).1
    rw [scan_of_firstStart _ _ _ _ _ hmr] at hsc
    exact hout2 ((scanStart_outside_iff _ _ _ _).1 hsc)
  · intro hin
    have hsc : scan r.NDeltas s2 e2 r.Metrics = Scan.inside := by
      rw [scan_of_firstStart _ _ _ _ _ hmr]
      exact scanStart_inside _ _ _ _ hout2 hin
    simp [Clip, hsc]

/-- Witness of C7, amended: the scenario chunk clipped to `[2s, 3s]`, then to
`[0s, 10s]`. -/
theorem Clip_widen_witness :
    (∀ q, Clip { Metrics := [startMetric], NDeltas := 2 } 0 10 ≠ some (false, q)) ∧
    (mst startMetric > 0 ∧ met startMetric < 10 →
      Clip { Metrics := [startMetric], NDeltas := 2 } 0 10
        = some (true, { Metrics := [startMetric], NDeltas := 2 })) :=
  Clip_widen scenarioChunk { Metrics := [startMetric], NDeltas := 2 } 2 3 0 10 startMetric
    (by decide) (by decide) (by decide) (by decide)

/-- C8. `Map` is a last-write-wins lookup view: the map has the key `k` exactly
when some metric of the chunk has `Key = k`; its value at `k` is `v` exactly
when `v` is the last metric of `c.Metrics` with `Key = k` (`v` is in the slice,
has the key, and no metric after it has the key); and `Map` leaves the chunk
as it was. -/
theorem Map_last_write_wins (c : Chunk) (k : String) :
    ((∃ v, (Map c).1 k = some v) ↔ ∃ x ∈ c.Metrics, x.Key = k) ∧
    (∀ v, (Map c).1 k = some v ↔
      ∃ pre post, c.Metrics = pre ++ v :: post ∧ v.Key = k ∧ ∀ x ∈ post, x.Key ≠ k) ∧
    (Map c).2 = c := by
  refine ⟨?_, ?_, rfl⟩
  · rw [Map_lookup, ← Option.isSome_iff_exists, List.find?_isSome]
    simp
  · intro v
    rw [Map_lookup, List.find?_eq_some]
    constructor
    · rintro ⟨hv, as, bs, hrev, hall⟩
      refine ⟨bs.reverse, as.reverse, ?_, by simpa using hv, ?_⟩
      · have := congrArg List.reverse hrev
        simpa using this
      · intro x hx
        have := hall x (List.mem_reverse.1 hx)
        simpa using this
    · rintro ⟨pre, post, hms, hv, hall⟩
      refine ⟨by simpa using hv, post.reverse, pre.reverse, ?_, ?_⟩
      · rw [hms]; simp
      · intro x hx
        have := hall x (List.mem_reverse.1 hx)
        simpa using this

/-- C9. Error aggregation: whatever results `r1` and `r2` arrive on the error
channel, in this order, `Chunks` returns; it returns nil exactly when both are
nil, it returns `r1` when `r1` is an error, and `r2` when `r1` is nil: the
first non-nil result in arrival order. -/
theorem Chunks_first_error {E : Type} (r1 r2 : Option E) :
    ∃ ret n, Chunks r1 r2 = some (ret, n) ∧
      (ret = none ↔ (r1 = none ∧ r2 = none)) ∧
      (∀ err, r1 = some err → ret = some err) ∧
      (r1 = none → ret = r2) := by
  cases r1 with
  | some a => exact ⟨some a, 1, rfl, by simp, by simp, by simp⟩
  | none =>
    cases r2 with
    | some b => exact ⟨some b, 2, rfl, by simp, by simp, by simp⟩
    | none => exact ⟨none, 2, rfl, by simp, by simp, by simp⟩

/-- C10 (the code at the failing input). When the first result received is an
error, `Chunks` returns it after one receive on the error channel: the second
result is never received. When the first result is nil there are two
receives. -/
theorem Chunks_receives {E : Type} (err : E) (r2 : Option E) :
    Chunks (some err) r2 = some (some err, 1) ∧
    Chunks none r2 = some (r2, 2) := by
  cases r2 with
  | some b => exact ⟨rfl, rfl⟩
  | none => exact ⟨rfl, rfl⟩

/-- C12, as stated, fails: in the chunk whose only metric is keyed `"end"` and
has no deltas, no metric is keyed `"start"`, and `Clip` panics (on the slice
expression `m.Deltas[si : ei+1]` with `si = 0`, `ei = 0`). -/
theorem Clip_no_start_panics :
    (∀ m ∈ noStartChunk.Metrics, m.Key ≠ "start") ∧
    scan noStartChunk.NDeltas 0 10 noStartChunk.Metrics = Scan.indices 0 0 ∧
    Clip noStartChunk 0 10 = none := by
  decide

/-- C12, amended. For a chunk in which no metric is keyed `"start"` and every
metric has at least one delta, and for every interval, `Clip` completes
without a panic, returns `true` and leaves `NDeltas` equal to 0. -/
theorem Clip_no_start (c : Chunk) (st et : Int)
    (hno : ∀ m ∈ c.Metrics, m.Key ≠ "start")
    (hne : ∀ m ∈ c.Metrics, 1 ≤ m.Deltas.length) :
    ∃ r, Clip c st et = some (true, r) ∧ r.NDeltas = 0 ∧ r.Metrics = c.Metrics := by
  have hs : scan c.NDeltas st et c.Metrics = Scan.indices 0 0 :=
    scan_of_firstStart_none _ _ _ _ (firstStart_none_of_forall _ hno)
  have hr : rebaseAll 0 0 c.Metrics = some () := by
    rw [rebaseAll_eq_some_iff]
    intro m hm
    have := hne m hm
    refine ⟨by omega, by omega, by omega⟩
  refine ⟨{ c with NDeltas := 0 - 0 }, ?_, by simp, rfl⟩
  simp [Clip, hs, hr]

/-- Witness of C12, amended: a chunk whose only metric is keyed `"end"` and has
two deltas, clipped to `[0s, 10s]`. -/
theorem Clip_no_start_witness :
    ∃ r, Clip { Metrics := [{ Key := "end", Value := 4000, Deltas := [1000, 1000] }],
                NDeltas := 2 } 0 10 = some (true, r) ∧ r.NDeltas = 0 ∧
      r.Metrics = [{ Key := "end", Value := 4000, Deltas := [1000, 1000] }] :=
  Clip_no_start { Metrics := [{ Key := "end", Value := 4000, Deltas := [1000, 1000] }],
                  NDeltas := 2 } 0 10 (by decide) (by decide)

/-- C13, as stated, fails: on the chunk with `NDeltas = 0` whose start metric
has `Value = 2000` and no deltas, `Clip` to `[2s, 2s]` takes neither early
return, and it is not the case that the first loop ends with `si = 0`, `ei = 0`
and `Clip` returns `true` with `NDeltas = 0`: it ends with `ei = -1` and
`NDeltas = -1`. -/
theorem Clip_zero_deltas_not_as_stated :
    ¬ (met { Key := "start", Value := 2000, Deltas := [] } < 2 ∨
       mst { Key := "start", Value := 2000, Deltas := [] } > 2) ∧
    ¬ (mst { Key := "start", Value := 2000, Deltas := [] } > 2 ∧
       met { Key := "start", Value := 2000, Deltas := [] } < 2) ∧
    ¬ (scan zeroChunk.NDeltas 2 2 zeroChunk.Metrics = Scan.indices 0 0 ∧
       ∃ r, Clip zeroChunk 2 2 = some (true, r) ∧ r.NDeltas = 0) ∧
    scan zeroChunk.NDeltas 2 2 zeroChunk.Metrics = Scan.indices 0 (-1) ∧
    Clip zeroChunk 2 2 = some (true, { zeroChunk with NDeltas := -1 }) := by
  refine ⟨by decide, by decide, ?_, by decide, by decide⟩
  rintro ⟨h, _⟩
  exact absurd h (by decide)

/-- C13, amended. For a chunk with `NDeltas = 0` whose first start metric is
`m` and an interval for which `Clip` takes neither early return, the walk body
never executes and leaves `si = 0` and `ei = 0`, the boundary adjustment sets
`ei` to `NDeltas - 1 = -1`, and `Clip` returns `true`. -/
theorem Clip_zero_deltas (c : Chunk) (st et : Int) (m : Metric)
    (hn : c.NDeltas = 0) (hm : firstStart c.Metrics = some m)
    (hout : ¬ (met m < st ∨ mst m > et)) (hin : ¬ (mst m > st ∧ met m < et)) :
    walk m.Deltas st et c.NDeltas.toNat 0 (mst m) 0 0 = some (0, 0) ∧
    scan c.NDeltas st et c.Metrics = Scan.indices 0 (-1) ∧
    ∃ r, Clip c st et = some (true, r) := by
  have hw : walk m.Deltas st et c.NDeltas.toNat 0 (mst m) 0 0 = some (0, 0) := by
    rw [hn]; rfl
  have h1b : (decide (met m < st) || decide (mst m > et)) = false := by
    simpa using hout
  have h2b : (decide (mst m > st) && decide (met m < et)) = false := by
    simpa using hin
  have hs : scan c.NDeltas st et c.Metrics = Scan.indices 0 (-1) := by
    rw [scan_of_firstStart _ _ _ _ _ hm]
    unfold scanStart
    rw [h1b, h2b, hw, hn]
    simp [adjust]
  have hr : rebaseAll 0 (-1) c.Metrics = some () := by
    rw [rebaseAll_eq_some_iff]
    intro x _
    refine ⟨by omega, by omega, by omega⟩
  refine ⟨hw, hs, { c with NDeltas := -1 - 0 }, ?_⟩
  simp [Clip, hs, hr]

/-- Witness of C13, amended: the chunk with zero deltas clipped to `[2s, 2s]`. -/
theorem Clip_zero_deltas_witness :
    walk [] 2 2 zeroChunk.NDeltas.toNat 0
        (mst { Key := "start", Value := 2000, Deltas := [] }) 0 0 = some (0, 0) ∧
    scan zeroChunk.NDeltas 2 2 zeroChunk.Metrics = Scan.indices 0 (-1) ∧
    ∃ r, Clip zeroChunk 2 2 = some (true, r) :=
  Clip_zero_deltas zeroChunk 2 2 { Key := "start", Value := 2000, Deltas := [] }
    (by decide) (by decide) (by decide) (by decide)

/-- C14. The indices depend only on the start metric: two chunks with the same
`NDeltas` and the same first metric keyed `"start"`, whatever their other
metrics, clipped to the same interval, give the same boolean and the same new
`NDeltas` when neither call panics. -/
theorem Clip_depends_on_start (c1 c2 r1 r2 : Chunk) (b1 b2 : Bool) (st et : Int)
    (m : Metric) (hn : c1.NDeltas = c2.NDeltas)
    (hm1 : firstStart c1.Metrics = some m) (hm2 : firstStart c2.Metrics = some m)
    (h1 : Clip c1 st et = some (b1, r1)) (h2 : Clip c2 st et = some (b2, r2)) :
    b1 = b2 ∧ r1.NDeltas = r2.NDeltas := by
  have e1 := scan_of_firstStart c1.NDeltas st et _ _ hm1
  have e2 := scan_of_firstStart c2.NDeltas st et _ _ hm2
  rw [← hn] at e2
  have hsc : scan c1.NDeltas st et c1.Metrics = scan c2.NDeltas st et c2.Metrics := by
    rw [e1, ← hn, e2]
  rcases Clip_some_cases c1 r1 b1 st et h1 with ⟨s1, hb1, hr1⟩ | ⟨s1, hb1, hr1⟩ |
      ⟨si, ei, s1, hb1, _, hr1⟩ <;>
    rcases Clip_some_cases c2 r2 b2 st et h2 with ⟨s2, hb2, hr2⟩ | ⟨s2, hb2, hr2⟩ |
      ⟨sj, ej, s2, hb2, _, hr2⟩ <;>
    rw [s1, s2] at hsc <;>
    cases hsc <;>
    subst hb1 hb2 hr1 hr2 <;>
    first
      | exact ⟨rfl, hn⟩
      | exact ⟨rfl, rfl⟩

/-- Witness of C14: the scenario chunk and the scenario chunk with more
metrics, clipped to `[2s, 3s]`. -/
theorem Clip_depends_on_start_witness :
    Clip scenarioChunk 2 3 = some (true, { scenarioChunk with NDeltas := 2 }) ∧
    Clip scenarioChunkMore 2 3 = some (true, { scenarioChunkMore with NDeltas := 2 }) ∧
    (true = true ∧
      ({ scenarioChunk with NDeltas := 2 } : Chunk).NDeltas
        = ({ scenarioChunkMore with NDeltas := 2 } : Chunk).NDeltas) :=
  ⟨by decide, by decide,
    Clip_depends_on_start scenarioChunk scenarioChunkMore
      { scenarioChunk with NDeltas := 2 } { scenarioChunkMore with NDeltas := 2 }
      true true 2 3 startMetric (by decide) (by decide) (by decide) (by decide) (by decide)⟩

/-- C15. `Clip` never changes the metrics: whenever it returns, whatever the
result, the metrics of the chunk after the call are those before the call. -/
theorem Clip_metrics_unchanged (c r : Chunk) (b : Bool) (st et : Int)
    (h : Clip c st et = some (b, r)) : r.Metrics = c.Metrics := by
  rcases Clip_some_cases c r b st et h with ⟨_, _, hr⟩ | ⟨_, _, hr⟩ | ⟨si, ei, _, _, _, hr⟩ <;>
    rw [hr]

/-- Witness of C15: the scenario chunk clipped to `[3s, 4s]`, where the first
loop ends with `si = 1`. -/
theorem Clip_metrics_unchanged_witness :
    Clip scenarioChunk 3 4 = some (true, { scenarioChunk with NDeltas := 1 }) ∧
    ({ scenarioChunk with NDeltas := 1 } : Chunk).Metrics = scenarioChunk.Metrics :=
  ⟨by decide,
    Clip_metrics_unchanged scenarioChunk { scenarioChunk with NDeltas := 1 } true 3 4
      (by decide)⟩

/-- C16. Under the data model (every metric has `NDeltas` deltas and some
metric is keyed `"start"`), for every `st` and `et`, `Clip` does not panic: it
returns, the walk does not index out of range, and the indices the first loop
ends with satisfy `0 ≤ si ≤ ei + 1 ≤ len(m.Deltas)` for every metric `m`. -/
theorem Clip_no_panic (c : Chunk) (st et : Int)
    (hlen : ∀ m ∈ c.Metrics, (m.Deltas.length : Int) = c.NDeltas)
    (hstart : ∃ m ∈ c.Metrics, m.Key = "start") :
    (∃ b r, Clip c st et = some (b, r)) ∧
    scan c.NDeltas st et c.Metrics ≠ Scan.panic ∧
    (∀ si ei, scan c.NDeltas st et c.Metrics = Scan.indices si ei →
      ∀ m ∈ c.Metrics, 0 ≤ si ∧ si ≤ ei + 1 ∧ ei + 1 ≤ (m.Deltas.length : Int)) := by
  obtain ⟨m0, hm0, hmem⟩ := firstStart_of_exists c.Metrics hstart
  have hs := scan_of_firstStart c.NDeltas st et _ _ hm0
  obtain ⟨hnp, hb⟩ := scanStart_bounds c.NDeltas st et m0 (hlen m0 hmem)
  rw [← hs] at hnp hb
  have hall : ∀ si ei, scan c.NDeltas st et c.Metrics = Scan.indices si ei →
      ∀ m ∈ c.Metrics, 0 ≤ si ∧ si ≤ ei + 1 ∧ ei + 1 ≤ (m.Deltas.length : Int) := by
    intro si ei h m hm
    rw [hlen m hm]
    exact hb si ei h
  refine ⟨?_, hnp, hall⟩
  unfold Clip
  cases hsc : scan c.NDeltas st et c.Metrics with
  | outside => exact ⟨false, c, rfl⟩
  | inside => exact ⟨true, c, rfl⟩
  | panic => exact absurd hsc hnp
  | indices si ei =>
    have hr := (rebaseAll_eq_some_iff si ei c.Metrics).2 (hall si ei hsc)
    simp only [hr]
    exact ⟨true, _, rfl⟩

/-- Witness of C16: the scenario chunk with more metrics, clipped to
`[3s, 2s]`. -/
theorem Clip_no_panic_witness :
    (∃ b r, Clip scenarioChunkMore 3 2 = some (b, r)) ∧
    scan scenarioChunkMore.NDeltas 3 2 scenarioChunkMore.Metrics ≠ Scan.panic ∧
    (∀ si ei, scan scenarioChunkMore.NDeltas 3 2 scenarioChunkMore.Metrics
        = Scan.indices si ei →
      ∀ m ∈ scenarioChunkMore.Metrics,
        0 ≤ si ∧ si ≤ ei + 1 ∧ ei + 1 ≤ (m.Deltas.length : Int)) :=
  Clip_no_panic scenarioChunkMore 3 2 (by decide) (by decide)

/-- C17. Under the data model, when `Clip` returns `true` without taking the
entirely-inside fast path, the new `NDeltas` is at least -1 and at most the old
`NDeltas` minus 1. -/
theorem Clip_slow_path_bound (c r : Chunk) (st et : Int) (m : Metric)
    (hlen : ∀ x ∈ c.Metrics, (x.Deltas.length : Int) = c.NDeltas)
    (hm : firstStart c.Metrics = some m)
    (hslow : ¬ (mst m > st ∧ met m < et))
    (h : Clip c st et = some (true, r)) :
    -1 ≤ r.NDeltas ∧ r.NDeltas ≤ c.NDeltas - 1 ∧ r.NDeltas < c.NDeltas := by
  have hs := scan_of_firstStart c.NDeltas st et _ _ hm
  have hmem : m ∈ c.Metrics := List.mem_of_find?_eq_some hm
  obtain ⟨_, hb⟩ := scanStart_bounds c.NDeltas st et m (hlen m hmem)
  rw [← hs] at hb
  rcases Clip_some_cases c r true st et h with ⟨_, hf, _⟩ | ⟨hi, _, _⟩ |
      ⟨si, ei, hsc, _, _, hr⟩
  · exact absurd hf (by decide)
  · exfalso
    rw [hs] at hi
    unfold scanStart at hi
    have h2b : (decide (mst m > st) && decide (met m < et)) = false := by
      simpa using hslow
    rw [h2b] at hi
    by_cases c1 : (decide (met m < st) || decide (mst m > et)) = true
    · rw [if_pos c1] at hi
      exact absurd hi (by simp)
    · rw [if_neg c1] at hi
      simp only [Bool.false_eq_true, if_false] at hi
      cases hw : walk m.Deltas st et c.NDeltas.toNat 0 (mst m) 0 0 with
      | none => rw [hw] at hi; exact absurd hi (by simp)
      | some p => rw [hw] at hi; exact absurd hi (by simp)
  · have := hb si ei hsc
    rw [hr]
    show -1 ≤ ei - si ∧ ei - si ≤ c.NDeltas - 1 ∧ ei - si < c.NDeltas
    omega

/-- Witness of C17: the scenario chunk clipped to `[2s, 3s]`, from 3 deltas to
2. -/
theorem Clip_slow_path_bound_witness :
    Clip scenarioChunk 2 3 = some (true, { scenarioChunk with NDeltas := 2 }) ∧
    (-1 ≤ ({ scenarioChunk with NDeltas := 2 } : Chunk).NDeltas ∧
     ({ scenarioChunk with NDeltas := 2 } : Chunk).NDeltas ≤ scenarioChunk.NDeltas - 1 ∧
     ({ scenarioChunk with NDeltas := 2 } : Chunk).NDeltas < scenarioChunk.NDeltas) :=
  ⟨by decide,
    Clip_slow_path_bound scenarioChunk { scenarioChunk with NDeltas := 2 } 2 3 startMetric
      (by decide) (by decide) (by decide) (by decide)⟩

/-- C18, as stated, fails: the start metric with `Value = 9223372036854775807`
and `Deltas = [1000]` has a non-negative value and non-negative deltas, and
after step 0 the clock of the walk is ahead of the time of sample 1 that is
used for `met`, because `Value + sum(Deltas)` wraps around in 64 bits. -/
theorem clock_ahead_on_overflow :
    0 ≤ overflowMetric.Value ∧ (∀ d ∈ overflowMetric.Deltas, 0 ≤ d) ∧
    clock overflowMetric 1 = 9223372036854776 ∧
    sampleSec overflowMetric 1 = -9223372036854774 ∧
    met overflowMetric = sampleSec overflowMetric 1 ∧
    ¬ (clock overflowMetric 1 ≤ sampleSec overflowMetric 1) := by
  decide

/-- C18, amended. For a start metric with non-negative `Value` and
non-negative `Deltas` whose last sample time `Value + sum(Deltas)` fits in 64
bits, and for every `i`: the clock of the walk after step `i` is
`Value / 1000` plus the sum of `Deltas[k] / 1000` for `k ≤ i`; the time of
sample `i + 1` used for `met` is `(Value + sum of Deltas[k] for k ≤ i) / 1000`;
the clock is at most that time; and the two are equal when every delta is a
multiple of 1000. -/
theorem clock_le_sampleSec (m : Metric) (i : Nat)
    (hv : 0 ≤ m.Value) (hd : ∀ d ∈ m.Deltas, 0 ≤ d)
    (hfit : m.Value + m.Deltas.sum < 9223372036854775808) :
    clock m (i + 1)
      = m.Value.tdiv 1000 + ((m.Deltas.take (i + 1)).map (fun d => d.tdiv 1000)).sum ∧
    sampleSec m (i + 1) = (m.Value + (m.Deltas.take (i + 1)).sum).tdiv 1000 ∧
    clock m (i + 1) ≤ sampleSec m (i + 1) ∧
    ((∀ d ∈ m.Deltas, (1000 : Int) ∣ d) → clock m (i + 1) = sampleSec m (i + 1)) := by
  have hpre : ∀ d ∈ m.Deltas.take (i + 1), 0 ≤ d :=
    fun d h => hd d (List.mem_of_mem_take h)
  have hdrop : 0 ≤ (m.Deltas.drop (i + 1)).sum :=
    List.sum_nonneg (fun d h => hd d (List.mem_of_mem_drop h))
  have hsplit := List.sum_take_add_sum_drop m.Deltas (i + 1)
  have hps : 0 ≤ (m.Deltas.take (i + 1)).sum := List.sum_nonneg hpre
  have hfit2 : m.Value + (m.Deltas.take (i + 1)).sum < 9223372036854775808 := by omega
  have hmst : mst m = m.Value / 1000 := Int.tdiv_eq_ediv hv (by decide)
  have hsum : sum (m.Deltas.take (i + 1)) = (m.Deltas.take (i + 1)).sum :=
    sum_eq_list_sum _ hpre (by omega)
  have hsec : sampleSec m (i + 1) = (m.Value + (m.Deltas.take (i + 1)).sum) / 1000 := by
    unfold sampleSec
    rw [hsum, wrap64_of_range _ (by omega) (by omega)]
    exact Int.tdiv_eq_ediv (by omega) (by decide)
  have hexact : (m.Value + (m.Deltas.take (i + 1)).sum).tdiv 1000
      = (m.Value + (m.Deltas.take (i + 1)).sum) / 1000 :=
    Int.tdiv_eq_ediv (by omega) (by decide)
  obtain ⟨h1, h2⟩ := clock_le_exact (m.Deltas.take (i + 1)) (mst m) m.Value
    (by rw [hmst]; omega) hv (by rw [hmst]) hpre hfit2
  refine ⟨?_, ?_, ?_, ?_⟩
  · exact h1
  · rw [hsec, hexact]
  · rw [hsec]
    exact h2
  · intro hdvd
    rw [hsec]
    exact clock_eq_exact (m.Deltas.take (i + 1)) (mst m) m.Value
      (by rw [hmst]; omega) hv hmst hpre
      (fun d h => hdvd d (List.mem_of_mem_take h)) hfit2

/-- Witness of C18, amended: the start metric of the scenarios at `i = 2`, and
a start metric whose value and deltas are not multiples of 1000 at `i = 1`. -/
theorem clock_le_sampleSec_witness :
    (clock startMetric 3 ≤ sampleSec startMetric 3 ∧ sampleSec startMetric 3 = 4) ∧
    (clock { Key := "start", Value := 1999, Deltas := [1999, 1999] } 2 = 3 ∧
     sampleSec { Key := "start", Value := 1999, Deltas := [1999, 1999] } 2 = 5) :=
  ⟨⟨(clock_le_sampleSec startMetric 2 (by decide) (by decide) (by decide)).2.2.1,
      by decide⟩,
    by decide⟩

/-- C11. Pipeline order and completion, on the model of the two stages: for a
stream without error whose `n` records all decode, (1) in every state that the
pipeline reaches in which `Chunks` has returned, it has returned nil, the
caller has received exactly the chunks decoded from the `n` records, in input
order, and the output channel is closed; (2) in every state it reaches in which
`Chunks` has not returned, some step can be taken; (3) no run takes more than
`2 * n + 5` steps; (4) there is a run after which `Chunks` has returned nil. -/
theorem Chunks_pipeline {R E : Type} (decode : R → Except E Chunk) (input : List R)
    (hwf : ∀ r ∈ input, ∃ c, decode r = Except.ok c) :
    (∀ sched s r, run decode sched (start input none) = some s → s.ret = some r →
      r = none ∧ s.out.map Except.ok = input.map decode ∧
        s.out.length = input.length ∧ s.outClosed = true) ∧
    (∀ sched s, run decode sched (start input none) = some s → s.ret = none →
      ∃ a t, step decode a s = some t) ∧
    (∀ sched s, run decode sched (start input none) = some s →
      sched.length ≤ 2 * input.length + 5) ∧
    (∃ sched s, run decode sched (start input none) = some s ∧ s.ret = some none) := by
  have h0 := Sound_start decode input hwf
  refine ⟨?_, ?_, ?_, ?_⟩
  · intro sched s r hrun hr
    have hS := Sound_run decode input sched _ s h0 hrun
    obtain ⟨h1, h2, h3⟩ := Sound_returned decode input s r hS hr
    refine ⟨h1, h2, ?_, h3⟩
    have := congrArg List.length h2
    simpa using this
  · intro sched s hrun hr
    exact Sound_progress decode input s (Sound_run decode input sched _ s h0 hrun) hr
  · intro sched s hrun
    have := run_length decode sched _ s hrun
    have hs : stepsLeft (start input (none : Option E)) = 2 * input.length + 5 := by
      simp [stepsLeft, start, Stage.left]
    omega
  · exact Sound_returns decode input _ _ h0 (le_refl _)

/-- Witness of C11: the scenario of three well-formed records. After the run
pass, emit, pass, emit, pass, emit, eof, drain, receive, receive, finish,
`Chunks` has returned nil, the caller has received the three chunks in input
order and the output channel is closed. -/
theorem Chunks_pipeline_witness :
    ∃ s, run decodeNat
        [Action.pass, Action.emit, Action.pass, Action.emit, Action.pass, Action.emit,
          Action.eof, Action.drain, Action.recvSource, Action.recvDecoder, Action.finish]
        (start [1, 2, 3] none) = some s ∧ s.ret = some none ∧
      s.out = [{ Metrics := [], NDeltas := 1 }, { Metrics := [], NDeltas := 2 },
               { Metrics := [], NDeltas := 3 }] ∧
      ((none : Option String) = none ∧ s.out.map Except.ok = [1, 2, 3].map decodeNat ∧
        s.out.length = [1, 2, 3].length ∧ s.outClosed = true) :=
  ⟨_, rfl, rfl, rfl,
    (Chunks_pipeline decodeNat [1, 2, 3] (fun _ _ => ⟨_, rfl⟩)).1
      [Action.pass, Action.emit, Action.pass, Action.emit, Action.pass, Action.emit,
        Action.eof, Action.drain, Action.recvSource, Action.recvDecoder, Action.finish]
      _ none rfl rfl⟩

end Ftdc
